import Mathlib

/-!
Verification of the slice-and-dice treemap partitioner
(`compute_treemap_rects` in `treemap.py`) against its specification.

The function takes a list of weights ("sizes"), an outer axis-aligned
rectangle `(x0, y0, x1, y1)`, an orientation flag, a current depth and a
maximum depth, and recursively splits the rectangle into leaf rectangles
whose areas are proportional to the weights.  We model the numeric type
by `ℚ` (exact arithmetic) and Python integers by `ℤ`.
-/

/-- An axis-aligned rectangle given by its min/max coordinates,
mirroring the `(x0, y0, x1, y1)` tuples of the source. -/
structure Rect where
  x0 : ℚ
  y0 : ℚ
  x1 : ℚ
  y1 : ℚ
deriving DecidableEq, Repr

/-- The numeric-stability floor `1e-6` used by the source. -/
def eps : ℚ := 1 / 1000000

/-- Width `x1 - x0` of a rectangle. -/
def rectW (r : Rect) : ℚ := r.x1 - r.x0

/-- Height `y1 - y0` of a rectangle. -/
def rectH (r : Rect) : ℚ := r.y1 - r.y0

/-- Area of a rectangle. -/
def rectArea (r : Rect) : ℚ := rectW r * rectH r

/-- The bisection scan of the source:
```
acc = 0.0
split_idx = 0
for i, a in enumerate(sizes):
    acc += a
    if acc >= half:
        split_idx = i + 1
        break
```
`splitScan half sizes acc i` returns the final `split_idx` (0 when the
running sum never reaches `half`). -/
def splitScan (half : ℚ) : List ℚ → ℚ → ℕ → ℕ
  | [], _, _ => 0
  | a :: rest, acc, i => if half ≤ acc + a then i + 1 else splitScan half rest (acc + a) (i + 1)

/-- The split index used by `compute_treemap_rects`: the scan result,
with the source's fallback `if split_idx == 0: split_idx = 1`. -/
def split_idx (sizes : List ℚ) : ℕ :=
  if splitScan (sizes.sum / 2) sizes 0 0 = 0 then 1 else splitScan (sizes.sum / 2) sizes 0 0

/-- `left_sizes = sizes[:split_idx]`. -/
def leftSizes (sizes : List ℚ) : List ℚ := sizes.take (split_idx sizes)

/-- `right_sizes = sizes[split_idx:]`. -/
def rightSizes (sizes : List ℚ) : List ℚ := sizes.drop (split_idx sizes)

/-- `left_width = width * (sum(left_sizes) / total) if total > 0 else 0`. -/
def leftW (sizes : List ℚ) (outer_rect : Rect) : ℚ :=
  if 0 < sizes.sum then rectW outer_rect * ((leftSizes sizes).sum / sizes.sum) else 0

/-- `left_height = height * (sum(left_sizes) / total) if total > 0 else 0`. -/
def leftH (sizes : List ℚ) (outer_rect : Rect) : ℚ :=
  if 0 < sizes.sum then rectH outer_rect * ((leftSizes sizes).sum / sizes.sum) else 0

/-- Fuel-indexed form of `compute_treemap_rects`: the fuel is the
remaining recursion budget `max_depth - depth`, so fuel `0` corresponds to
the `depth >= max_depth` stopping condition of the source, and each
recursive call burns one unit of fuel. -/
def computeAux : ℕ → List ℚ → Rect → Bool → List Rect
  | 0, _, _, _ => []
  | fuel + 1, sizes, outer_rect, horizontal =>
    if sizes = [] then []
    else if sizes.sum ≤ 0 then []
    else if sizes.length = 1 then [outer_rect]
    else if sizes.sum < eps then []
    else if rectW outer_rect < eps ∨ rectH outer_rect < eps then []
    else if horizontal then
      if leftW sizes outer_rect < eps then []
      else
        computeAux fuel (leftSizes sizes)
          ⟨outer_rect.x0, outer_rect.y0, outer_rect.x0 + leftW sizes outer_rect, outer_rect.y1⟩
          (!horizontal)
        ++ computeAux fuel (rightSizes sizes)
          ⟨outer_rect.x0 + leftW sizes outer_rect, outer_rect.y0, outer_rect.x1, outer_rect.y1⟩
          (!horizontal)
    else
      if leftH sizes outer_rect < eps then []
      else
        computeAux fuel (leftSizes sizes)
          ⟨outer_rect.x0, outer_rect.y0, outer_rect.x1, outer_rect.y0 + leftH sizes outer_rect⟩
          (!horizontal)
        ++ computeAux fuel (rightSizes sizes)
          ⟨outer_rect.x0, outer_rect.y0 + leftH sizes outer_rect, outer_rect.x1, outer_rect.y1⟩
          (!horizontal)

/-- Shallow embedding of `compute_treemap_rects` from `treemap.py`,
with the guards in the source's order:

```
if not sizes or depth >= max_depth: return []
total = sum(sizes)
if total <= 0: return []
if len(sizes) == 1: return [outer_rect]
if total < 1e-6: return []
x0, y0, x1, y1 = outer_rect
width = x1 - x0; height = y1 - y0
if width < 1e-6 or height < 1e-6: return []
half = total / 2.0; acc = 0.0; split_idx = 0
for i, a in enumerate(sizes):
    acc += a
    if acc >= half: split_idx = i + 1; break
if split_idx == 0: split_idx = 1
left_sizes = sizes[:split_idx]; right_sizes = sizes[split_idx:]
if horizontal:
    left_width = width * (sum(left_sizes) / total) if total > 0 else 0
    if left_width < 1e-6: return []
    left_rect = (x0, y0, x0 + left_width, y1)
    right_rect = (x0 + left_width, y0, x1, y1)
else:
    left_height = height * (sum(left_sizes) / total) if total > 0 else 0
    if left_height < 1e-6: return []
    left_rect = (x0, y0, x1, y0 + left_height)
    right_rect = (x0, y0 + left_height, x1, y1)
left_geo = compute_treemap_rects(left_sizes, left_rect, not horizontal, depth + 1, max_depth)
right_geo = compute_treemap_rects(right_sizes, right_rect, not horizontal, depth + 1, max_depth)
return left_geo + right_geo
```

The per-step computations `split_idx`, `left_sizes`, `right_sizes`,
`left_width`, `left_height` are the named definitions above. -/
def compute_treemap_rects (sizes : List ℚ) (outer_rect : Rect) (horizontal : Bool)
    (depth max_depth : ℤ) : List Rect :=
  if hstop : sizes = [] ∨ max_depth ≤ depth then []
  else if sizes.sum ≤ 0 then []
  else if sizes.length = 1 then [outer_rect]
  else if sizes.sum < eps then []
  else if rectW outer_rect < eps ∨ rectH outer_rect < eps then []
  else if horizontal then
    if leftW sizes outer_rect < eps then []
    else
      compute_treemap_rects (leftSizes sizes)
        ⟨outer_rect.x0, outer_rect.y0, outer_rect.x0 + leftW sizes outer_rect, outer_rect.y1⟩
        (!horizontal) (depth + 1) max_depth
      ++ compute_treemap_rects (rightSizes sizes)
        ⟨outer_rect.x0 + leftW sizes outer_rect, outer_rect.y0, outer_rect.x1, outer_rect.y1⟩
        (!horizontal) (depth + 1) max_depth
  else
    if leftH sizes outer_rect < eps then []
    else
      compute_treemap_rects (leftSizes sizes)
        ⟨outer_rect.x0, outer_rect.y0, outer_rect.x1, outer_rect.y0 + leftH sizes outer_rect⟩
        (!horizontal) (depth + 1) max_depth
      ++ compute_treemap_rects (rightSizes sizes)
        ⟨outer_rect.x0, outer_rect.y0 + leftH sizes outer_rect, outer_rect.x1, outer_rect.y1⟩
        (!horizontal) (depth + 1) max_depth
termination_by (max_depth - depth).toNat
decreasing_by
  all_goals
    rw [not_or] at hstop
    omega

/-- The recursion of `compute_treemap_rects` only ever depends on the
remaining budget `max(0, max_depth - depth)`: it coincides with the
fuel-indexed `computeAux` run on that budget. -/
theorem compute_eq_computeAux (sizes : List ℚ) (outer_rect : Rect) (horizontal : Bool)
    (depth max_depth : ℤ) :
    compute_treemap_rects sizes outer_rect horizontal depth max_depth
      = computeAux (max_depth - depth).toNat sizes outer_rect horizontal := by
  generalize hf : (max_depth - depth).toNat = fuel
  induction fuel generalizing sizes outer_rect horizontal depth max_depth with
  | zero =>
    have hd : max_depth ≤ depth := by omega
    rw [compute_treemap_rects, dif_pos (Or.inr hd)]
    rfl
  | succ n ih =>
    have hd : ¬ max_depth ≤ depth := by omega
    by_cases hs : sizes = []
    · rw [compute_treemap_rects, dif_pos (Or.inl hs), computeAux, if_pos hs]
    · rw [compute_treemap_rects, dif_neg (by simp [hs, hd]), computeAux, if_neg hs]
      have hrec : (max_depth - (depth + 1)).toNat = n := by omega
      split_ifs <;> try rfl
      all_goals rw [ih _ _ _ _ _ hrec, ih _ _ _ _ _ hrec]

/-! ### Basic facts about the split scan and the split lists -/

theorem splitScan_pos (half : ℚ) :
    ∀ (l : List ℚ) (acc : ℚ) (i : ℕ), l ≠ [] → half ≤ acc + l.sum →
      i + 1 ≤ splitScan half l acc i := by
  intro l
  induction l with
  | nil => intro acc i h; exact absurd rfl h
  | cons a rest ih =>
    intro acc i _ hsum
    rw [splitScan]
    split_ifs with hc
    · exact le_refl _
    · have hrest : rest ≠ [] := by
        rcases rest with _ | ⟨b, t⟩
        · simp only [List.sum_cons, List.sum_nil, add_zero] at hsum
          exact absurd hsum hc
        · exact List.cons_ne_nil b t
      have h2 := ih (acc + a) (i + 1) hrest (by
        rw [List.sum_cons] at hsum
        linarith)
      omega

theorem splitScan_le (half : ℚ) :
    ∀ (l : List ℚ) (acc : ℚ) (i k : ℕ), 1 ≤ k → half ≤ acc + (l.take k).sum →
      splitScan half l acc i ≤ i + k := by
  intro l
  induction l with
  | nil => intro acc i k _ _; rw [splitScan]; omega
  | cons a rest ih =>
    intro acc i k hk hsum
    rw [splitScan]
    split_ifs with hc
    · omega
    · rcases Nat.exists_eq_add_of_le hk with ⟨j, hj⟩
      rcases Nat.eq_zero_or_pos j with hj0 | hjpos
      · have hk1 : k = 1 := by omega
        subst hk1
        have ht : List.take 1 (a :: rest) = [a] := rfl
        rw [ht, List.sum_cons, List.sum_nil, add_zero] at hsum
        exact absurd hsum hc
      · have hk' : k = j + 1 := by omega
        subst hk'
        have hsum' : half ≤ (acc + a) + (rest.take j).sum := by
          rw [List.take_succ_cons, List.sum_cons] at hsum
          linarith
        have := ih (acc + a) (i + 1) j hjpos hsum'
        omega

theorem split_idx_pos (sizes : List ℚ) : 1 ≤ split_idx sizes := by
  rw [split_idx]
  split_ifs <;> omega

theorem leftSizes_append_rightSizes (sizes : List ℚ) :
    leftSizes sizes ++ rightSizes sizes = sizes :=
  List.take_append_drop _ _

theorem sum_leftSizes_add_sum_rightSizes (sizes : List ℚ) :
    (leftSizes sizes).sum + (rightSizes sizes).sum = sizes.sum := by
  rw [← List.sum_append, leftSizes_append_rightSizes]

theorem length_leftSizes_add_length_rightSizes (sizes : List ℚ) :
    (leftSizes sizes).length + (rightSizes sizes).length = sizes.length := by
  rw [← List.length_append, leftSizes_append_rightSizes]

theorem leftSizes_ne_nil (sizes : List ℚ) (h : sizes ≠ []) : leftSizes sizes ≠ [] := by
  have h1 := split_idx_pos sizes
  rw [leftSizes, ← List.length_pos]
  rw [← List.length_pos] at h
  rw [List.length_take]
  omega

/-! ### The result never has more rectangles than there are weights -/

theorem computeAux_length_le :
    ∀ (fuel : ℕ) (sizes : List ℚ) (outer_rect : Rect) (horizontal : Bool),
      (computeAux fuel sizes outer_rect horizontal).length ≤ sizes.length := by
  intro fuel
  induction fuel with
  | zero => intro sizes r h; rw [computeAux]; exact Nat.zero_le _
  | succ n ih =>
    intro sizes r h
    rw [computeAux]
    have hlr := length_leftSizes_add_length_rightSizes sizes
    split_ifs with h1 h2 h3 h4 h5 h6 h7 h8 <;>
      first
        | exact Nat.zero_le _
        | (rw [h3]; exact le_refl _)
        | (rw [List.length_append]
           exact le_trans (Nat.add_le_add (ih _ _ _) (ih _ _ _)) (le_of_eq hlr))

/-- Once the budget is large enough for the whole weight list to be
placed, giving the recursion even more budget does not change the
result. -/
theorem computeAux_fuel_mono (f g : ℕ) (s : List ℚ) (r : Rect) (h : Bool) (hfg : f ≤ g)
    (hsucc : (computeAux f s r h).length = s.length) :
    computeAux g s r h = computeAux f s r h := by
  induction f generalizing g s r h with
  | zero =>
    have hs : s = [] := by
      rw [computeAux] at hsucc
      exact List.length_eq_zero.mp hsucc.symm
    subst hs
    cases g with
    | zero => rfl
    | succ m =>
      have hg : computeAux (m + 1) ([] : List ℚ) r h = [] := by
        rw [computeAux, if_pos rfl]
      rw [hg, computeAux]
  | succ n ih =>
    cases g with
    | zero => omega
    | succ m =>
      have hnm : n ≤ m := by omega
      rw [computeAux, computeAux]
      split_ifs with h1 h2 h3 h4 h5 h6 h7 h8 <;> try rfl
      · rw [computeAux, if_neg h1, if_neg h2, if_neg h3, if_neg h4, if_neg h5, if_pos h6,
          if_neg h7, List.length_append] at hsucc
        have hL := computeAux_length_le n (leftSizes s) ⟨r.x0, r.y0, r.x0 + leftW s r, r.y1⟩ (!h)
        have hR := computeAux_length_le n (rightSizes s) ⟨r.x0 + leftW s r, r.y0, r.x1, r.y1⟩ (!h)
        have hlr := length_leftSizes_add_length_rightSizes s
        rw [ih m _ _ _ hnm (by omega), ih m _ _ _ hnm (by omega)]
      · rw [computeAux, if_neg h1, if_neg h2, if_neg h3, if_neg h4, if_neg h5, if_neg h6,
          if_neg h8, List.length_append] at hsucc
        have hL := computeAux_length_le n (leftSizes s) ⟨r.x0, r.y0, r.x1, r.y0 + leftH s r⟩ (!h)
        have hR := computeAux_length_le n (rightSizes s) ⟨r.x0, r.y0 + leftH s r, r.x1, r.y1⟩ (!h)
        have hlr := length_leftSizes_add_length_rightSizes s
        rw [ih m _ _ _ hnm (by omega), ih m _ _ _ hnm (by omega)]

/-! ### Single-weight behaviour -/

theorem compute_single (w : ℚ) (outer_rect : Rect) (horizontal : Bool) (depth max_depth : ℤ)
    (hw : 0 < w) (hd : depth < max_depth) :
    compute_treemap_rects [w] outer_rect horizontal depth max_depth = [outer_rect] := by
  rw [compute_treemap_rects]
  have h1 : ¬ ([w] = [] ∨ max_depth ≤ depth) := by
    rw [not_or]
    exact ⟨List.cons_ne_nil w [], by omega⟩
  have h2 : ¬ (List.sum [w] ≤ 0) := by
    simp only [List.sum_cons, List.sum_nil, add_zero]
    exact hw.not_le
  rw [dif_neg h1, if_neg h2, if_pos (by rfl : ([w] : List ℚ).length = 1)]

/-- Claim C4 (as stated) is false: with `depth = max_depth = 0` the
recursion-depth guard fires before the single-element check, so a single
positive weight yields `[]` and not `[outer_rect]`. -/
theorem C4_counterexample :
    (0 : ℚ) < 1 ∧
      compute_treemap_rects [1] ⟨0, 0, 1, 1⟩ true 0 0 ≠ [⟨0, 0, 1, 1⟩] := by
  constructor
  · norm_num
  · rw [compute_eq_computeAux]
    have h0 : ((0 : ℤ) - 0).toNat = 0 := rfl
    rw [h0, computeAux]
    simp

/-- Claim C4 (amended): for every positive weight `w`, outer rectangle,
orientation flag and depths with `depth < maxDepth`,
`compute_treemap_rects [w] outer horizontal depth maxDepth` returns
`[outer]` unchanged. -/
theorem C4_single_item_identity (w : ℚ) (outer_rect : Rect) (horizontal : Bool)
    (depth max_depth : ℤ) (hw : 0 < w) (hd : depth < max_depth) :
    compute_treemap_rects [w] outer_rect horizontal depth max_depth = [outer_rect] :=
  compute_single w outer_rect horizontal depth max_depth hw hd

theorem C4_witness :
    compute_treemap_rects [5] ⟨1, 2, 3, 4⟩ false 0 50 = [⟨1, 2, 3, 4⟩] :=
  C4_single_item_identity 5 ⟨1, 2, 3, 4⟩ false 0 50 (by norm_num) (by norm_num)

/-- Claim C9: the single-element check precedes the numeric-stability
guards, so a single positive weight below `1e-6` and an outer rectangle
with degenerate width still return `[outer_rect]` when `depth < maxDepth`. -/
theorem C9_single_item_before_guards (w : ℚ) (outer_rect : Rect) (horizontal : Bool)
    (depth max_depth : ℤ) (hw : 0 < w) (hd : depth < max_depth) :
    compute_treemap_rects [w] outer_rect horizontal depth max_depth = [outer_rect] :=
  compute_single w outer_rect horizontal depth max_depth hw hd

theorem C9_witness :
    (0 : ℚ) < 1 / 2000000 ∧ (1 : ℚ) / 2000000 < eps ∧
      rectW ⟨0, 0, 1 / 2000000, 1⟩ < eps ∧
      compute_treemap_rects [1 / 2000000] ⟨0, 0, 1 / 2000000, 1⟩ true 0 50
        = [⟨0, 0, 1 / 2000000, 1⟩] :=
  ⟨by norm_num, by rw [eps]; norm_num, by rw [rectW, eps]; norm_num,
    C9_single_item_before_guards (1 / 2000000) ⟨0, 0, 1 / 2000000, 1⟩ true 0 50
      (by norm_num) (by norm_num)⟩

/-- Claim C5: `compute_treemap_rects` is a total function, and its
recursion is fully described by running the fuel-indexed `computeAux`
with budget `max(0, maxDepth - depth)` (`Int.toNat` clamps at 0):
the nesting of recursive calls is bounded by that budget, independent of
the number of weights, because each call increases `depth` by 1 and the
function returns `[]` as soon as `depth ≥ maxDepth`. -/
theorem C5_recursion_depth_bound (sizes : List ℚ) (outer_rect : Rect) (horizontal : Bool)
    (depth max_depth : ℤ) :
    compute_treemap_rects sizes outer_rect horizontal depth max_depth
      = computeAux (max_depth - depth).toNat sizes outer_rect horizontal :=
  compute_eq_computeAux sizes outer_rect horizontal depth max_depth

/-- Claim C6: whenever the split scan runs (`total > 0`, at least two
weights), the running sum over all elements reaches `total / 2`, so the
scan returns an index `≥ 1` and the fallback branch forcing
`split_idx = 1` after the scan is dead (`split_idx` equals the raw scan
result). -/
theorem C6_scan_always_crosses (sizes : List ℚ) (hlen : 2 ≤ sizes.length)
    (hpos : 0 < sizes.sum) :
    1 ≤ splitScan (sizes.sum / 2) sizes 0 0 ∧
      split_idx sizes = splitScan (sizes.sum / 2) sizes 0 0 := by
  have hne : sizes ≠ [] := by
    intro h
    rw [h] at hlen
    simp at hlen
  have h1 := splitScan_pos (sizes.sum / 2) sizes 0 0 hne (by linarith)
  exact ⟨by omega, by rw [split_idx, if_neg (by omega)]⟩

theorem C6_witness :
    1 ≤ splitScan (List.sum [(1 : ℚ), 1] / 2) [(1 : ℚ), 1] 0 0 ∧
      split_idx [(1 : ℚ), 1] = splitScan (List.sum [(1 : ℚ), 1] / 2) [(1 : ℚ), 1] 0 0 :=
  C6_scan_always_crosses [1, 1] (by norm_num) (by norm_num)

set_option maxHeartbeats 2000000 in
/-- Claim C7: for weights `[1,1,1,1]`, outer `(0,0,4,1)`, `horizontal =
true`, depth 0 and maxDepth 50, the top-level split index is 2 (two
weights on each side) and the result is the 2×2 arrangement
`[(0,0,2,1/2), (0,1/2,2,1), (2,0,4,1/2), (2,1/2,4,1)]` in that order. -/
theorem C7_alternating_axis :
    split_idx [(1 : ℚ), 1, 1, 1] = 2 ∧
      compute_treemap_rects [(1 : ℚ), 1, 1, 1] ⟨0, 0, 4, 1⟩ true 0 50
        = [⟨0, 0, 2, 1/2⟩, ⟨0, 1/2, 2, 1⟩, ⟨2, 0, 4, 1/2⟩, ⟨2, 1/2, 4, 1⟩] := by
  have hval : computeAux 3 [(1 : ℚ), 1, 1, 1] ⟨0, 0, 4, 1⟩ true
      = [⟨0, 0, 2, 1/2⟩, ⟨0, 1/2, 2, 1⟩, ⟨2, 0, 4, 1/2⟩, ⟨2, 1/2, 4, 1⟩] := by
    norm_num [computeAux, splitScan, split_idx, leftSizes, rightSizes, leftW, leftH, eps,
      rectW, rectH, List.cons_ne_nil]
  constructor
  · norm_num [split_idx, splitScan]
  · rw [compute_eq_computeAux]
    have h50 : ((50 : ℤ) - 0).toNat = 50 := rfl
    rw [h50, computeAux_fuel_mono 3 50 _ _ _ (by norm_num) (by rw [hval]; rfl), hval]

/-- Claim C8: for every input, the number of rectangles returned by
`compute_treemap_rects` is at most the number of input weights. -/
theorem C8_length_le (sizes : List ℚ) (outer_rect : Rect) (horizontal : Bool)
    (depth max_depth : ℤ) :
    (compute_treemap_rects sizes outer_rect horizontal depth max_depth).length
      ≤ sizes.length := by
  rw [compute_eq_computeAux]
  exact computeAux_length_le _ _ _ _

/-! ### Geometry: containment and disjointness -/

theorem eps_pos : (0 : ℚ) < eps := by norm_num [eps]

/-- `q` lies inside `R`, coordinate-wise. -/
def containedIn (q R : Rect) : Prop :=
  R.x0 ≤ q.x0 ∧ q.x1 ≤ R.x1 ∧ R.y0 ≤ q.y0 ∧ q.y1 ≤ R.y1

/-- The rectangle invariant `x0 ≤ x1 ∧ y0 ≤ y1`. -/
def properRect (q : Rect) : Prop := q.x0 ≤ q.x1 ∧ q.y0 ≤ q.y1

theorem containedIn_refl (q : Rect) : containedIn q q :=
  ⟨le_refl _, le_refl _, le_refl _, le_refl _⟩

theorem containedIn_trans {a b c : Rect} (h1 : containedIn a b) (h2 : containedIn b c) :
    containedIn a c :=
  ⟨le_trans h2.1 h1.1, le_trans h1.2.1 h2.2.1, le_trans h2.2.2.1 h1.2.2.1,
    le_trans h1.2.2.2 h2.2.2.2⟩

theorem leftW_bounds (s : List ℚ) (r : Rect) (hw : ∀ a ∈ s, 0 ≤ a) (htot : 0 < s.sum)
    (hWr : 0 ≤ rectW r) : 0 ≤ leftW s r ∧ leftW s r ≤ rectW r := by
  rw [leftW, if_pos htot]
  have hls0 : 0 ≤ (leftSizes s).sum :=
    List.sum_nonneg (fun a ha => hw a (List.take_subset _ _ ha))
  have hrs0 : 0 ≤ (rightSizes s).sum :=
    List.sum_nonneg (fun a ha => hw a (List.drop_subset _ _ ha))
  have hsum := sum_leftSizes_add_sum_rightSizes s
  refine ⟨mul_nonneg hWr (div_nonneg hls0 htot.le), ?_⟩
  have h1 : (leftSizes s).sum / s.sum ≤ 1 := div_le_one_of_le (by linarith) htot.le
  calc rectW r * ((leftSizes s).sum / s.sum) ≤ rectW r * 1 :=
        mul_le_mul_of_nonneg_left h1 hWr
    _ = rectW r := mul_one _

theorem leftH_bounds (s : List ℚ) (r : Rect) (hw : ∀ a ∈ s, 0 ≤ a) (htot : 0 < s.sum)
    (hHr : 0 ≤ rectH r) : 0 ≤ leftH s r ∧ leftH s r ≤ rectH r := by
  rw [leftH, if_pos htot]
  have hls0 : 0 ≤ (leftSizes s).sum :=
    List.sum_nonneg (fun a ha => hw a (List.take_subset _ _ ha))
  have hrs0 : 0 ≤ (rightSizes s).sum :=
    List.sum_nonneg (fun a ha => hw a (List.drop_subset _ _ ha))
  have hsum := sum_leftSizes_add_sum_rightSizes s
  refine ⟨mul_nonneg hHr (div_nonneg hls0 htot.le), ?_⟩
  have h1 : (leftSizes s).sum / s.sum ≤ 1 := div_le_one_of_le (by linarith) htot.le
  calc rectH r * ((leftSizes s).sum / s.sum) ≤ rectH r * 1 :=
        mul_le_mul_of_nonneg_left h1 hHr
    _ = rectH r := mul_one _

theorem computeAux_contained :
    ∀ (fuel : ℕ) (s : List ℚ) (r : Rect) (h : Bool), (∀ a ∈ s, 0 ≤ a) → properRect r →
      ∀ q ∈ computeAux fuel s r h, properRect q ∧ containedIn q r := by
  intro fuel
  induction fuel with
  | zero =>
    intro s r h _ _ q hq
    rw [computeAux] at hq
    exact absurd hq (List.not_mem_nil q)
  | succ n ih =>
    intro s r h hw hpr q hq
    rw [computeAux] at hq
    split_ifs at hq with h1 h2 h3 h4 h5 h6 h7 h8
    · exact absurd hq (List.not_mem_nil q)
    · exact absurd hq (List.not_mem_nil q)
    · rw [List.mem_singleton] at hq
      subst hq
      exact ⟨hpr, containedIn_refl q⟩
    · exact absurd hq (List.not_mem_nil q)
    · exact absurd hq (List.not_mem_nil q)
    · exact absurd hq (List.not_mem_nil q)
    · -- horizontal split
      have htot : 0 < s.sum := not_le.mp h2
      rw [not_or, not_lt, not_lt] at h5
      have hlw := leftW_bounds s r hw htot (le_trans eps_pos.le h5.1)
      simp only [rectW] at hlw
      simp only [rectH] at h5
      have hwL : ∀ a ∈ leftSizes s, 0 ≤ a := fun a ha => hw a (List.take_subset _ _ ha)
      have hwR : ∀ a ∈ rightSizes s, 0 ≤ a := fun a ha => hw a (List.drop_subset _ _ ha)
      have hlp : properRect ⟨r.x0, r.y0, r.x0 + leftW s r, r.y1⟩ := by
        constructor
        · show r.x0 ≤ r.x0 + leftW s r
          linarith [hlw.1]
        · show r.y0 ≤ r.y1
          linarith [h5.2, eps_pos]
      have hrp : properRect ⟨r.x0 + leftW s r, r.y0, r.x1, r.y1⟩ := by
        constructor
        · show r.x0 + leftW s r ≤ r.x1
          linarith [hlw.2]
        · show r.y0 ≤ r.y1
          linarith [h5.2, eps_pos]
      have hlc : containedIn ⟨r.x0, r.y0, r.x0 + leftW s r, r.y1⟩ r := by
        refine ⟨le_refl _, ?_, le_refl _, le_refl _⟩
        show r.x0 + leftW s r ≤ r.x1
        linarith [hlw.2]
      have hrc : containedIn ⟨r.x0 + leftW s r, r.y0, r.x1, r.y1⟩ r := by
        refine ⟨?_, le_refl _, le_refl _, le_refl _⟩
        show r.x0 ≤ r.x0 + leftW s r
        linarith [hlw.1]
      rcases List.mem_append.mp hq with hqL | hqR
      · have hres := ih (leftSizes s) _ (!h) hwL hlp q hqL
        exact ⟨hres.1, containedIn_trans hres.2 hlc⟩
      · have hres := ih (rightSizes s) _ (!h) hwR hrp q hqR
        exact ⟨hres.1, containedIn_trans hres.2 hrc⟩
    · exact absurd hq (List.not_mem_nil q)
    · -- vertical split
      have htot : 0 < s.sum := not_le.mp h2
      rw [not_or, not_lt, not_lt] at h5
      have hlh := leftH_bounds s r hw htot (le_trans eps_pos.le h5.2)
      simp only [rectH] at hlh
      simp only [rectW] at h5
      have hwL : ∀ a ∈ leftSizes s, 0 ≤ a := fun a ha => hw a (List.take_subset _ _ ha)
      have hwR : ∀ a ∈ rightSizes s, 0 ≤ a := fun a ha => hw a (List.drop_subset _ _ ha)
      have hlp : properRect ⟨r.x0, r.y0, r.x1, r.y0 + leftH s r⟩ := by
        constructor
        · show r.x0 ≤ r.x1
          linarith [h5.1, eps_pos]
        · show r.y0 ≤ r.y0 + leftH s r
          linarith [hlh.1]
      have hrp : properRect ⟨r.x0, r.y0 + leftH s r, r.x1, r.y1⟩ := by
        constructor
        · show r.x0 ≤ r.x1
          linarith [h5.1, eps_pos]
        · show r.y0 + leftH s r ≤ r.y1
          linarith [hlh.2]
      have hlc : containedIn ⟨r.x0, r.y0, r.x1, r.y0 + leftH s r⟩ r := by
        refine ⟨le_refl _, le_refl _, le_refl _, ?_⟩
        show r.y0 + leftH s r ≤ r.y1
        linarith [hlh.2]
      have hrc : containedIn ⟨r.x0, r.y0 + leftH s r, r.x1, r.y1⟩ r := by
        refine ⟨le_refl _, le_refl _, ?_, le_refl _⟩
        show r.y0 ≤ r.y0 + leftH s r
        linarith [hlh.1]
      rcases List.mem_append.mp hq with hqL | hqR
      · have hres := ih (leftSizes s) _ (!h) hwL hlp q hqL
        exact ⟨hres.1, containedIn_trans hres.2 hlc⟩
      · have hres := ih (rightSizes s) _ (!h) hwR hrp q hqR
        exact ⟨hres.1, containedIn_trans hres.2 hrc⟩

/-- Claim C10: for nonnegative weights and an outer rectangle satisfying
`x0 ≤ x1` and `y0 ≤ y1`, every returned rectangle itself satisfies
`x0 ≤ x1` and `y0 ≤ y1` and is contained in the outer rectangle. -/
theorem C10_rects_proper_and_contained (sizes : List ℚ) (outer_rect : Rect)
    (horizontal : Bool) (depth max_depth : ℤ) (hw : ∀ a ∈ sizes, 0 ≤ a)
    (hx : outer_rect.x0 ≤ outer_rect.x1) (hy : outer_rect.y0 ≤ outer_rect.y1)
    (q : Rect) (hq : q ∈ compute_treemap_rects sizes outer_rect horizontal depth max_depth) :
    properRect q ∧ containedIn q outer_rect := by
  rw [compute_eq_computeAux] at hq
  exact computeAux_contained _ _ _ _ hw ⟨hx, hy⟩ q hq

set_option maxHeartbeats 1000000 in
/-- Concrete evaluation used by several witnesses: the weights `[3, 1]`
on `(0,0,4,1)` split into `(0,0,3,1)` and `(3,0,4,1)`. -/
theorem compute_eval31 :
    compute_treemap_rects [(3 : ℚ), 1] ⟨0, 0, 4, 1⟩ true 0 2 = [⟨0, 0, 3, 1⟩, ⟨3, 0, 4, 1⟩] := by
  have hval : computeAux 2 [(3 : ℚ), 1] ⟨0, 0, 4, 1⟩ true = [⟨0, 0, 3, 1⟩, ⟨3, 0, 4, 1⟩] := by
    norm_num [computeAux, splitScan, split_idx, leftSizes, rightSizes, leftW, leftH, eps,
      rectW, rectH, List.cons_ne_nil]
  rw [compute_eq_computeAux]
  have h2 : ((2 : ℤ) - 0).toNat = 2 := rfl
  rw [h2, hval]

theorem C10_witness :
    properRect ⟨0, 0, 3, 1⟩ ∧ containedIn ⟨0, 0, 3, 1⟩ ⟨0, 0, 4, 1⟩ := by
  refine C10_rects_proper_and_contained [3, 1] ⟨0, 0, 4, 1⟩ true 0 2 (by norm_num)
    (by norm_num) (by norm_num) ⟨0, 0, 3, 1⟩ ?_
  rw [compute_eval31]
  simp

/-- Area of the intersection of two axis-aligned rectangles. -/
def interArea (p q : Rect) : ℚ :=
  max 0 (min p.x1 q.x1 - max p.x0 q.x0) * max 0 (min p.y1 q.y1 - max p.y0 q.y0)

theorem interArea_of_sep_x {p q : Rect} (hsep : p.x1 ≤ q.x0) : interArea p q = 0 := by
  rw [interArea]
  have h1 : min p.x1 q.x1 - max p.x0 q.x0 ≤ 0 := by
    have ha := min_le_left p.x1 q.x1
    have hb := le_max_right p.x0 q.x0
    linarith
  rw [max_eq_left h1, zero_mul]

theorem interArea_of_sep_y {p q : Rect} (hsep : p.y1 ≤ q.y0) : interArea p q = 0 := by
  rw [interArea]
  have h1 : min p.y1 q.y1 - max p.y0 q.y0 ≤ 0 := by
    have ha := min_le_left p.y1 q.y1
    have hb := le_max_right p.y0 q.y0
    linarith
  rw [max_eq_left h1, mul_zero]

theorem interArea_comm (p q : Rect) : interArea p q = interArea q p := by
  rw [interArea, interArea, min_comm p.x1 q.x1, max_comm p.x0 q.x0,
    min_comm p.y1 q.y1, max_comm p.y0 q.y0]

/-- All pairs of distinct rectangles in the result have zero intersection
area (for nonnegative weights). -/
theorem computeAux_pairwise :
    ∀ (fuel : ℕ) (s : List ℚ) (r : Rect) (h : Bool), (∀ a ∈ s, 0 ≤ a) →
      List.Pairwise (fun p q => interArea p q = 0) (computeAux fuel s r h) := by
  intro fuel
  induction fuel with
  | zero =>
    intro s r h _
    rw [computeAux]
    exact List.Pairwise.nil
  | succ n ih =>
    intro s r h hw
    rw [computeAux]
    split_ifs with h1 h2 h3 h4 h5 h6 h7 h8
    · exact List.Pairwise.nil
    · exact List.Pairwise.nil
    · exact List.pairwise_singleton _ _
    · exact List.Pairwise.nil
    · exact List.Pairwise.nil
    · exact List.Pairwise.nil
    · -- horizontal split
      have htot : 0 < s.sum := not_le.mp h2
      rw [not_or, not_lt, not_lt] at h5
      have hlw := leftW_bounds s r hw htot (le_trans eps_pos.le h5.1)
      have hwL : ∀ a ∈ leftSizes s, 0 ≤ a := fun a ha => hw a (List.take_subset _ _ ha)
      have hwR : ∀ a ∈ rightSizes s, 0 ≤ a := fun a ha => hw a (List.drop_subset _ _ ha)
      simp only [rectH] at h5
      have hlp : properRect ⟨r.x0, r.y0, r.x0 + leftW s r, r.y1⟩ :=
        ⟨by show r.x0 ≤ r.x0 + leftW s r; linarith [hlw.1],
         by show r.y0 ≤ r.y1; linarith [h5.2, eps_pos]⟩
      have hrp : properRect ⟨r.x0 + leftW s r, r.y0, r.x1, r.y1⟩ :=
        ⟨by show r.x0 + leftW s r ≤ r.x1; simp only [rectW] at hlw; linarith [hlw.2],
         by show r.y0 ≤ r.y1; linarith [h5.2, eps_pos]⟩
      rw [List.pairwise_append]
      refine ⟨ih _ _ _ hwL, ih _ _ _ hwR, ?_⟩
      intro p hp q hq
      have hpc := computeAux_contained n (leftSizes s) _ (!h) hwL hlp p hp
      have hqc := computeAux_contained n (rightSizes s) _ (!h) hwR hrp q hq
      exact interArea_of_sep_x (le_trans hpc.2.2.1 hqc.2.1)
    · exact List.Pairwise.nil
    · -- vertical split
      have htot : 0 < s.sum := not_le.mp h2
      rw [not_or, not_lt, not_lt] at h5
      have hlh := leftH_bounds s r hw htot (le_trans eps_pos.le h5.2)
      have hwL : ∀ a ∈ leftSizes s, 0 ≤ a := fun a ha => hw a (List.take_subset _ _ ha)
      have hwR : ∀ a ∈ rightSizes s, 0 ≤ a := fun a ha => hw a (List.drop_subset _ _ ha)
      simp only [rectW] at h5
      have hlp : properRect ⟨r.x0, r.y0, r.x1, r.y0 + leftH s r⟩ :=
        ⟨by show r.x0 ≤ r.x1; linarith [h5.1, eps_pos],
         by show r.y0 ≤ r.y0 + leftH s r; linarith [hlh.1]⟩
      have hrp : properRect ⟨r.x0, r.y0 + leftH s r, r.x1, r.y1⟩ :=
        ⟨by show r.x0 ≤ r.x1; linarith [h5.1, eps_pos],
         by show r.y0 + leftH s r ≤ r.y1; simp only [rectH] at hlh; linarith [hlh.2]⟩
      rw [List.pairwise_append]
      refine ⟨ih _ _ _ hwL, ih _ _ _ hwR, ?_⟩
      intro p hp q hq
      have hpc := computeAux_contained n (leftSizes s) _ (!h) hwL hlp p hp
      have hqc := computeAux_contained n (rightSizes s) _ (!h) hwR hrp q hq
      exact interArea_of_sep_y (le_trans hpc.2.2.2.2 hqc.2.2.2.1)

/-! ### Areas of the returned rectangles -/

theorem splitScan_le_length (half : ℚ) :
    ∀ (l : List ℚ) (acc : ℚ) (i : ℕ), splitScan half l acc i ≤ i + l.length := by
  intro l
  induction l with
  | nil => intro acc i; rw [splitScan]; omega
  | cons a rest ih =>
    intro acc i
    rw [splitScan]
    split_ifs
    · simp only [List.length_cons]
      omega
    · have := ih (acc + a) (i + 1)
      simp only [List.length_cons]
      omega

theorem split_idx_le_length (sizes : List ℚ) (h : sizes ≠ []) :
    split_idx sizes ≤ sizes.length := by
  have h1 := splitScan_le_length (sizes.sum / 2) sizes 0 0
  have h2 : 0 < sizes.length := List.length_pos.mpr h
  rw [split_idx]
  split_ifs <;> omega

theorem computeAux_ne_nil_sum_pos (fuel : ℕ) (s : List ℚ) (r : Rect) (h : Bool)
    (hne : computeAux fuel s r h ≠ []) : 0 < s.sum := by
  cases fuel with
  | zero => rw [computeAux] at hne; exact absurd rfl hne
  | succ n =>
    rw [computeAux] at hne
    split_ifs at hne with h1 h2 h3 h4 h5 h6 h7 h8 <;>
      first
        | exact absurd rfl hne
        | exact not_le.mp h2

theorem computeAux_area_sum :
    ∀ (fuel : ℕ) (s : List ℚ) (r : Rect) (h : Bool), s ≠ [] →
      (computeAux fuel s r h).length = s.length →
      ((computeAux fuel s r h).map rectArea).sum = rectArea r := by
  intro fuel
  induction fuel with
  | zero =>
    intro s r h hne hlen
    rw [computeAux, List.length_nil] at hlen
    exact absurd (List.length_eq_zero.mp hlen.symm) hne
  | succ n ih =>
    intro s r h hne hlen
    rw [computeAux] at hlen ⊢
    split_ifs at hlen ⊢ with h1 h2 h3 h4 h5 h6 h7 h8
    · exact absurd h1 hne
    · rw [List.length_nil] at hlen
      exact absurd (List.length_eq_zero.mp hlen.symm) hne
    · simp [rectArea]
    · rw [List.length_nil] at hlen
      exact absurd (List.length_eq_zero.mp hlen.symm) hne
    · rw [List.length_nil] at hlen
      exact absurd (List.length_eq_zero.mp hlen.symm) hne
    · rw [List.length_nil] at hlen
      exact absurd (List.length_eq_zero.mp hlen.symm) hne
    · -- horizontal split
      have htot : 0 < s.sum := not_le.mp h2
      rw [List.length_append] at hlen
      have hLle := computeAux_length_le n (leftSizes s)
        ⟨r.x0, r.y0, r.x0 + leftW s r, r.y1⟩ (!h)
      have hRle := computeAux_length_le n (rightSizes s)
        ⟨r.x0 + leftW s r, r.y0, r.x1, r.y1⟩ (!h)
      have hlr := length_leftSizes_add_length_rightSizes s
      have hLlen : (computeAux n (leftSizes s)
          ⟨r.x0, r.y0, r.x0 + leftW s r, r.y1⟩ (!h)).length = (leftSizes s).length := by omega
      have hRlen : (computeAux n (rightSizes s)
          ⟨r.x0 + leftW s r, r.y0, r.x1, r.y1⟩ (!h)).length = (rightSizes s).length := by omega
      rw [List.map_append, List.sum_append]
      have hlne := leftSizes_ne_nil s h1
      have ihL := ih (leftSizes s) _ (!h) hlne hLlen
      by_cases hr0 : rightSizes s = []
      · have hleq : leftSizes s = s := by
          have h9 := leftSizes_append_rightSizes s
          rw [hr0, List.append_nil] at h9
          exact h9
        have hRnil : computeAux n (rightSizes s)
            ⟨r.x0 + leftW s r, r.y0, r.x1, r.y1⟩ (!h) = [] := by
          rw [← List.length_eq_zero, hRlen, hr0]
          rfl
        rw [ihL, hRnil]
        simp only [List.map_nil, List.sum_nil, add_zero]
        have hlw_eq : leftW s r = r.x1 - r.x0 := by
          rw [leftW, if_pos htot, hleq, div_self (ne_of_gt htot), mul_one, rectW]
        simp only [rectArea, rectW, rectH]
        rw [hlw_eq]
        ring
      · have ihR := ih (rightSizes s) _ (!h) hr0 hRlen
        rw [ihL, ihR]
        simp only [rectArea, rectW, rectH]
        ring
    · rw [List.length_nil] at hlen
      exact absurd (List.length_eq_zero.mp hlen.symm) hne
    · -- vertical split
      have htot : 0 < s.sum := not_le.mp h2
      rw [List.length_append] at hlen
      have hLle := computeAux_length_le n (leftSizes s)
        ⟨r.x0, r.y0, r.x1, r.y0 + leftH s r⟩ (!h)
      have hRle := computeAux_length_le n (rightSizes s)
        ⟨r.x0, r.y0 + leftH s r, r.x1, r.y1⟩ (!h)
      have hlr := length_leftSizes_add_length_rightSizes s
      have hLlen : (computeAux n (leftSizes s)
          ⟨r.x0, r.y0, r.x1, r.y0 + leftH s r⟩ (!h)).length = (leftSizes s).length := by omega
      have hRlen : (computeAux n (rightSizes s)
          ⟨r.x0, r.y0 + leftH s r, r.x1, r.y1⟩ (!h)).length = (rightSizes s).length := by omega
      rw [List.map_append, List.sum_append]
      have hlne := leftSizes_ne_nil s h1
      have ihL := ih (leftSizes s) _ (!h) hlne hLlen
      by_cases hr0 : rightSizes s = []
      · have hleq : leftSizes s = s := by
          have h9 := leftSizes_append_rightSizes s
          rw [hr0, List.append_nil] at h9
          exact h9
        have hRnil : computeAux n (rightSizes s)
            ⟨r.x0, r.y0 + leftH s r, r.x1, r.y1⟩ (!h) = [] := by
          rw [← List.length_eq_zero, hRlen, hr0]
          rfl
        rw [ihL, hRnil]
        simp only [List.map_nil, List.sum_nil, add_zero]
        have hlh_eq : leftH s r = r.y1 - r.y0 := by
          rw [leftH, if_pos htot, hleq, div_self (ne_of_gt htot), mul_one, rectH]
        simp only [rectArea, rectW, rectH]
        rw [hlh_eq]
        ring
      · have ihR := ih (rightSizes s) _ (!h) hr0 hRlen
        rw [ihL, ihR]
        simp only [rectArea, rectW, rectH]
        ring

theorem computeAux_area_prop :
    ∀ (fuel : ℕ) (s : List ℚ) (r : Rect) (h : Bool),
      (computeAux fuel s r h).length = s.length →
      ∀ i, i < s.length →
        rectArea ((computeAux fuel s r h).getD i ⟨0, 0, 0, 0⟩) * s.sum
          = s.getD i 0 * rectArea r := by
  intro fuel
  induction fuel with
  | zero =>
    intro s r h hlen i hi
    rw [computeAux, List.length_nil] at hlen
    omega
  | succ n ih =>
    intro s r h hlen i hi
    rw [computeAux] at hlen ⊢
    split_ifs at hlen ⊢ with h1 h2 h3 h4 h5 h6 h7 h8
    · rw [h1, List.length_nil] at hi
      omega
    · rw [List.length_nil] at hlen
      omega
    · obtain ⟨a, ha⟩ := List.length_eq_one.mp h3
      subst ha
      have hi0 : i = 0 := by
        rw [List.length_singleton] at hi
        omega
      subst hi0
      simp only [List.getD_cons_zero, List.sum_cons, List.sum_nil, add_zero]
      ring
    · rw [List.length_nil] at hlen
      omega
    · rw [List.length_nil] at hlen
      omega
    · rw [List.length_nil] at hlen
      omega
    · -- horizontal split
      have htot : 0 < s.sum := not_le.mp h2
      rw [List.length_append] at hlen
      have hLle := computeAux_length_le n (leftSizes s)
        ⟨r.x0, r.y0, r.x0 + leftW s r, r.y1⟩ (!h)
      have hRle := computeAux_length_le n (rightSizes s)
        ⟨r.x0 + leftW s r, r.y0, r.x1, r.y1⟩ (!h)
      have hlr := length_leftSizes_add_length_rightSizes s
      have hLlen : (computeAux n (leftSizes s)
          ⟨r.x0, r.y0, r.x0 + leftW s r, r.y1⟩ (!h)).length = (leftSizes s).length := by omega
      have hRlen : (computeAux n (rightSizes s)
          ⟨r.x0 + leftW s r, r.y0, r.x1, r.y1⟩ (!h)).length = (rightSizes s).length := by omega
      have hk := split_idx_le_length s h1
      have hlen_take : (leftSizes s).length = split_idx s := by
        rw [leftSizes, List.length_take]
        omega
      by_cases hiL : i < (leftSizes s).length
      · rw [List.getD_append _ _ _ _ (by omega)]
        have hLne : computeAux n (leftSizes s)
            ⟨r.x0, r.y0, r.x0 + leftW s r, r.y1⟩ (!h) ≠ [] := by
          rw [← List.length_pos, hLlen]
          omega
        have hls_pos : 0 < (leftSizes s).sum := computeAux_ne_nil_sum_pos n _ _ _ hLne
        have ihL := ih (leftSizes s) ⟨r.x0, r.y0, r.x0 + leftW s r, r.y1⟩ (!h) hLlen i hiL
        have hgd : (leftSizes s).getD i 0 = s.getD i 0 := by
          rw [List.getD_eq_getElem _ _ hiL, List.getD_eq_getElem _ _ hi]
          exact List.getElem_take _
        have harea : rectArea ⟨r.x0, r.y0, r.x0 + leftW s r, r.y1⟩
            = rectArea r * ((leftSizes s).sum / s.sum) := by
          rw [leftW, if_pos htot]
          simp only [rectArea, rectW, rectH]
          ring
        rw [harea, hgd] at ihL
        have hcan : rectArea ((computeAux n (leftSizes s)
              ⟨r.x0, r.y0, r.x0 + leftW s r, r.y1⟩ (!h)).getD i ⟨0, 0, 0, 0⟩)
              * s.sum * (leftSizes s).sum
            = s.getD i 0 * rectArea r * (leftSizes s).sum := by
          calc rectArea ((computeAux n (leftSizes s)
                ⟨r.x0, r.y0, r.x0 + leftW s r, r.y1⟩ (!h)).getD i ⟨0, 0, 0, 0⟩)
                * s.sum * (leftSizes s).sum
              = (rectArea ((computeAux n (leftSizes s)
                  ⟨r.x0, r.y0, r.x0 + leftW s r, r.y1⟩ (!h)).getD i ⟨0, 0, 0, 0⟩)
                  * (leftSizes s).sum) * s.sum := by ring
            _ = (s.getD i 0 * (rectArea r * ((leftSizes s).sum / s.sum))) * s.sum := by rw [ihL]
            _ = s.getD i 0 * rectArea r * ((leftSizes s).sum / s.sum * s.sum) := by ring
            _ = s.getD i 0 * rectArea r * (leftSizes s).sum := by
                rw [div_mul_cancel₀ _ (ne_of_gt htot)]
        exact mul_right_cancel₀ (ne_of_gt hls_pos) hcan
      · obtain ⟨j, hij⟩ : ∃ j, i = split_idx s + j :=
          ⟨i - split_idx s, by omega⟩
        subst hij
        have hj : j < (rightSizes s).length := by
          rw [rightSizes, List.length_drop]
          omega
        rw [List.getD_append_right _ _ _ _ (by omega), hLlen, hlen_take,
          Nat.add_sub_cancel_left]
        have hRne : computeAux n (rightSizes s)
            ⟨r.x0 + leftW s r, r.y0, r.x1, r.y1⟩ (!h) ≠ [] := by
          rw [← List.length_pos, hRlen]
          omega
        have hrs_pos : 0 < (rightSizes s).sum := computeAux_ne_nil_sum_pos n _ _ _ hRne
        have ihR := ih (rightSizes s) ⟨r.x0 + leftW s r, r.y0, r.x1, r.y1⟩ (!h) hRlen j hj
        have hgd : (rightSizes s).getD j 0 = s.getD (split_idx s + j) 0 := by
          rw [List.getD_eq_getElem _ _ hj, List.getD_eq_getElem _ _ hi]
          exact List.getElem_drop _
        have hsums := sum_leftSizes_add_sum_rightSizes s
        have harea : rectArea ⟨r.x0 + leftW s r, r.y0, r.x1, r.y1⟩
            = rectArea r * ((rightSizes s).sum / s.sum) := by
          have hls : (leftSizes s).sum = s.sum - (rightSizes s).sum := by linarith
          rw [leftW, if_pos htot, hls]
          simp only [rectArea, rectW, rectH]
          field_simp
          ring
        rw [harea, hgd] at ihR
        have hcan : rectArea ((computeAux n (rightSizes s)
              ⟨r.x0 + leftW s r, r.y0, r.x1, r.y1⟩ (!h)).getD j ⟨0, 0, 0, 0⟩)
              * s.sum * (rightSizes s).sum
            = s.getD (split_idx s + j) 0 * rectArea r * (rightSizes s).sum := by
          calc rectArea ((computeAux n (rightSizes s)
                ⟨r.x0 + leftW s r, r.y0, r.x1, r.y1⟩ (!h)).getD j ⟨0, 0, 0, 0⟩)
                * s.sum * (rightSizes s).sum
              = (rectArea ((computeAux n (rightSizes s)
                  ⟨r.x0 + leftW s r, r.y0, r.x1, r.y1⟩ (!h)).getD j ⟨0, 0, 0, 0⟩)
                  * (rightSizes s).sum) * s.sum := by ring
            _ = (s.getD (split_idx s + j) 0
                  * (rectArea r * ((rightSizes s).sum / s.sum))) * s.sum := by rw [ihR]
            _ = s.getD (split_idx s + j) 0 * rectArea r
                  * ((rightSizes s).sum / s.sum * s.sum) := by ring
            _ = s.getD (split_idx s + j) 0 * rectArea r * (rightSizes s).sum := by
                rw [div_mul_cancel₀ _ (ne_of_gt htot)]
        exact mul_right_cancel₀ (ne_of_gt hrs_pos) hcan
    · rw [List.length_nil] at hlen
      omega
    · -- vertical split
      have htot : 0 < s.sum := not_le.mp h2
      rw [List.length_append] at hlen
      have hLle := computeAux_length_le n (leftSizes s)
        ⟨r.x0, r.y0, r.x1, r.y0 + leftH s r⟩ (!h)
      have hRle := computeAux_length_le n (rightSizes s)
        ⟨r.x0, r.y0 + leftH s r, r.x1, r.y1⟩ (!h)
      have hlr := length_leftSizes_add_length_rightSizes s
      have hLlen : (computeAux n (leftSizes s)
          ⟨r.x0, r.y0, r.x1, r.y0 + leftH s r⟩ (!h)).length = (leftSizes s).length := by omega
      have hRlen : (computeAux n (rightSizes s)
          ⟨r.x0, r.y0 + leftH s r, r.x1, r.y1⟩ (!h)).length = (rightSizes s).length := by omega
      have hk := split_idx_le_length s h1
      have hlen_take : (leftSizes s).length = split_idx s := by
        rw [leftSizes, List.length_take]
        omega
      by_cases hiL : i < (leftSizes s).length
      · rw [List.getD_append _ _ _ _ (by omega)]
        have hLne : computeAux n (leftSizes s)
            ⟨r.x0, r.y0, r.x1, r.y0 + leftH s r⟩ (!h) ≠ [] := by
          rw [← List.length_pos, hLlen]
          omega
        have hls_pos : 0 < (leftSizes s).sum := computeAux_ne_nil_sum_pos n _ _ _ hLne
        have ihL := ih (leftSizes s) ⟨r.x0, r.y0, r.x1, r.y0 + leftH s r⟩ (!h) hLlen i hiL
        have hgd : (leftSizes s).getD i 0 = s.getD i 0 := by
          rw [List.getD_eq_getElem _ _ hiL, List.getD_eq_getElem _ _ hi]
          exact List.getElem_take _
        have harea : rectArea ⟨r.x0, r.y0, r.x1, r.y0 + leftH s r⟩
            = rectArea r * ((leftSizes s).sum / s.sum) := by
          rw [leftH, if_pos htot]
          simp only [rectArea, rectW, rectH]
          ring
        rw [harea, hgd] at ihL
        have hcan : rectArea ((computeAux n (leftSizes s)
              ⟨r.x0, r.y0, r.x1, r.y0 + leftH s r⟩ (!h)).getD i ⟨0, 0, 0, 0⟩)
              * s.sum * (leftSizes s).sum
            = s.getD i 0 * rectArea r * (leftSizes s).sum := by
          calc rectArea ((computeAux n (leftSizes s)
                ⟨r.x0, r.y0, r.x1, r.y0 + leftH s r⟩ (!h)).getD i ⟨0, 0, 0, 0⟩)
                * s.sum * (leftSizes s).sum
              = (rectArea ((computeAux n (leftSizes s)
                  ⟨r.x0, r.y0, r.x1, r.y0 + leftH s r⟩ (!h)).getD i ⟨0, 0, 0, 0⟩)
                  * (leftSizes s).sum) * s.sum := by ring
            _ = (s.getD i 0 * (rectArea r * ((leftSizes s).sum / s.sum))) * s.sum := by rw [ihL]
            _ = s.getD i 0 * rectArea r * ((leftSizes s).sum / s.sum * s.sum) := by ring
            _ = s.getD i 0 * rectArea r * (leftSizes s).sum := by
                rw [div_mul_cancel₀ _ (ne_of_gt htot)]
        exact mul_right_cancel₀ (ne_of_gt hls_pos) hcan
      · obtain ⟨j, hij⟩ : ∃ j, i = split_idx s + j :=
          ⟨i - split_idx s, by omega⟩
        subst hij
        have hj : j < (rightSizes s).length := by
          rw [rightSizes, List.length_drop]
          omega
        rw [List.getD_append_right _ _ _ _ (by omega), hLlen, hlen_take,
          Nat.add_sub_cancel_left]
        have hRne : computeAux n (rightSizes s)
            ⟨r.x0, r.y0 + leftH s r, r.x1, r.y1⟩ (!h) ≠ [] := by
          rw [← List.length_pos, hRlen]
          omega
        have hrs_pos : 0 < (rightSizes s).sum := computeAux_ne_nil_sum_pos n _ _ _ hRne
        have ihR := ih (rightSizes s) ⟨r.x0, r.y0 + leftH s r, r.x1, r.y1⟩ (!h) hRlen j hj
        have hgd : (rightSizes s).getD j 0 = s.getD (split_idx s + j) 0 := by
          rw [List.getD_eq_getElem _ _ hj, List.getD_eq_getElem _ _ hi]
          exact List.getElem_drop _
        have hsums := sum_leftSizes_add_sum_rightSizes s
        have harea : rectArea ⟨r.x0, r.y0 + leftH s r, r.x1, r.y1⟩
            = rectArea r * ((rightSizes s).sum / s.sum) := by
          have hls : (leftSizes s).sum = s.sum - (rightSizes s).sum := by linarith
          rw [leftH, if_pos htot, hls]
          simp only [rectArea, rectW, rectH]
          field_simp
          ring
        rw [harea, hgd] at ihR
        have hcan : rectArea ((computeAux n (rightSizes s)
              ⟨r.x0, r.y0 + leftH s r, r.x1, r.y1⟩ (!h)).getD j ⟨0, 0, 0, 0⟩)
              * s.sum * (rightSizes s).sum
            = s.getD (split_idx s + j) 0 * rectArea r * (rightSizes s).sum := by
          calc rectArea ((computeAux n (rightSizes s)
                ⟨r.x0, r.y0 + leftH s r, r.x1, r.y1⟩ (!h)).getD j ⟨0, 0, 0, 0⟩)
                * s.sum * (rightSizes s).sum
              = (rectArea ((computeAux n (rightSizes s)
                  ⟨r.x0, r.y0 + leftH s r, r.x1, r.y1⟩ (!h)).getD j ⟨0, 0, 0, 0⟩)
                  * (rightSizes s).sum) * s.sum := by ring
            _ = (s.getD (split_idx s + j) 0
                  * (rectArea r * ((rightSizes s).sum / s.sum))) * s.sum := by rw [ihR]
            _ = s.getD (split_idx s + j) 0 * rectArea r
                  * ((rightSizes s).sum / s.sum * s.sum) := by ring
            _ = s.getD (split_idx s + j) 0 * rectArea r * (rightSizes s).sum := by
                rw [div_mul_cancel₀ _ (ne_of_gt htot)]
        exact mul_right_cancel₀ (ne_of_gt hrs_pos) hcan

/-- Claim C2 (as stated) fails in one degenerate corner: for a single
weight on an outer rectangle of zero area the call still succeeds (the
single-element check precedes the dimension guards), but the ratio
`area / outerArea` is a division by zero and cannot equal `w / total`. -/
theorem C2_counterexample :
    (compute_treemap_rects [(1 : ℚ)] ⟨0, 0, 0, 1⟩ true 0 50).length
        = ([(1 : ℚ)]).length ∧
      ¬ (rectArea ((compute_treemap_rects [(1 : ℚ)] ⟨0, 0, 0, 1⟩ true 0 50).getD 0 ⟨0, 0, 0, 0⟩)
          / rectArea ⟨0, 0, 0, 1⟩ = List.getD [(1 : ℚ)] 0 0 / List.sum [(1 : ℚ)]) := by
  have hval : compute_treemap_rects [(1 : ℚ)] ⟨0, 0, 0, 1⟩ true 0 50 = [⟨0, 0, 0, 1⟩] :=
    compute_single 1 ⟨0, 0, 0, 1⟩ true 0 50 (by norm_num) (by norm_num)
  refine ⟨by rw [hval]; rfl, ?_⟩
  rw [hval]
  norm_num [rectArea, rectW, rectH]

/-- Claim C2 (amended): whenever `compute_treemap_rects` returns one
rectangle per input weight and the outer rectangle has nonzero area, the
i-th returned rectangle's area divided by the outer area equals
`weights[i] / total`; in particular output position i corresponds to
input weight i. -/
theorem C2_area_proportionality (sizes : List ℚ) (outer_rect : Rect) (horizontal : Bool)
    (depth max_depth : ℤ)
    (hsucc : (compute_treemap_rects sizes outer_rect horizontal depth max_depth).length
      = sizes.length)
    (houter : rectArea outer_rect ≠ 0) (i : ℕ) (hi : i < sizes.length) :
    rectArea ((compute_treemap_rects sizes outer_rect horizontal depth max_depth).getD i
        ⟨0, 0, 0, 0⟩) / rectArea outer_rect
      = sizes.getD i 0 / sizes.sum := by
  rw [compute_eq_computeAux] at hsucc ⊢
  have htot : 0 < sizes.sum := by
    apply computeAux_ne_nil_sum_pos ((max_depth - depth).toNat) sizes outer_rect horizontal
    rw [← List.length_pos, hsucc]
    omega
  have hmul := computeAux_area_prop ((max_depth - depth).toNat) sizes outer_rect horizontal
    hsucc i hi
  rw [div_eq_div_iff houter (ne_of_gt htot)]
  linarith [hmul]

theorem C2_witness :
    rectArea ((compute_treemap_rects [(3 : ℚ), 1] ⟨0, 0, 4, 1⟩ true 0 2).getD 0 ⟨0, 0, 0, 0⟩)
        / rectArea ⟨0, 0, 4, 1⟩
      = List.getD [(3 : ℚ), 1] 0 0 / List.sum [(3 : ℚ), 1] :=
  C2_area_proportionality [3, 1] ⟨0, 0, 4, 1⟩ true 0 2
    (by rw [compute_eval31]; rfl) (by norm_num [rectArea, rectW, rectH]) 0 (by norm_num)

/-- Claim C3 (as stated) fails for the empty weight list: the call
trivially returns one rectangle per weight (zero of them, all positive
vacuously), yet the sum of the returned areas is 0, not the outer
area. -/
theorem C3_counterexample :
    (∀ a ∈ ([] : List ℚ), 0 < a) ∧
      (compute_treemap_rects [] ⟨0, 0, 1, 1⟩ true 0 50).length = ([] : List ℚ).length ∧
      ((compute_treemap_rects [] ⟨0, 0, 1, 1⟩ true 0 50).map rectArea).sum
        ≠ rectArea ⟨0, 0, 1, 1⟩ := by
  have hval : compute_treemap_rects [] ⟨0, 0, 1, 1⟩ true 0 50 = [] := by
    rw [compute_treemap_rects, dif_pos (Or.inl rfl)]
  refine ⟨by simp, by rw [hval]; rfl, ?_⟩
  rw [hval]
  norm_num [rectArea, rectW, rectH]

/-- Claim C3 (amended): for a nonempty weight list with all weights
positive on which `compute_treemap_rects` returns one rectangle per
weight, the result tiles the outer rectangle exactly: any two
rectangles at distinct positions have zero intersection area, and the
areas sum to the outer rectangle's area. -/
theorem C3_tiling (sizes : List ℚ) (outer_rect : Rect) (horizontal : Bool)
    (depth max_depth : ℤ) (hne : sizes ≠ []) (hw : ∀ a ∈ sizes, 0 < a)
    (hsucc : (compute_treemap_rects sizes outer_rect horizontal depth max_depth).length
      = sizes.length)
    (i j : ℕ)
    (hi : i < (compute_treemap_rects sizes outer_rect horizontal depth max_depth).length)
    (hj : j < (compute_treemap_rects sizes outer_rect horizontal depth max_depth).length)
    (hij : i ≠ j) :
    interArea ((compute_treemap_rects sizes outer_rect horizontal depth max_depth).getD i
        ⟨0, 0, 0, 0⟩)
      ((compute_treemap_rects sizes outer_rect horizontal depth max_depth).getD j
        ⟨0, 0, 0, 0⟩) = 0 ∧
    ((compute_treemap_rects sizes outer_rect horizontal depth max_depth).map rectArea).sum
      = rectArea outer_rect := by
  rw [compute_eq_computeAux] at hsucc hi hj ⊢
  constructor
  · have hpw := computeAux_pairwise ((max_depth - depth).toNat) sizes outer_rect horizontal
      (fun a ha => (hw a ha).le)
    rw [List.pairwise_iff_getElem] at hpw
    rw [List.getD_eq_getElem _ _ hi, List.getD_eq_getElem _ _ hj]
    rcases lt_or_gt_of_ne hij with hlt | hgt
    · exact hpw i j hi hj hlt
    · rw [interArea_comm]
      exact hpw j i hj hi hgt
  · exact computeAux_area_sum ((max_depth - depth).toNat) sizes outer_rect horizontal hne hsucc

theorem C3_witness :
    interArea ((compute_treemap_rects [(3 : ℚ), 1] ⟨0, 0, 4, 1⟩ true 0 2).getD 0 ⟨0, 0, 0, 0⟩)
      ((compute_treemap_rects [(3 : ℚ), 1] ⟨0, 0, 4, 1⟩ true 0 2).getD 1 ⟨0, 0, 0, 0⟩) = 0 ∧
    ((compute_treemap_rects [(3 : ℚ), 1] ⟨0, 0, 4, 1⟩ true 0 2).map rectArea).sum
      = rectArea ⟨0, 0, 4, 1⟩ :=
  C3_tiling [3, 1] ⟨0, 0, 4, 1⟩ true 0 2 (by exact List.cons_ne_nil _ _) (by norm_num)
    (by rw [compute_eval31]; rfl) 0 1 (by rw [compute_eval31]; norm_num)
    (by rw [compute_eval31]; norm_num) (by norm_num)

/-! ### Claim C1: cardinality -/

theorem le_sum_of_forall_le (l : List ℚ) (w : ℚ) (hw : 0 ≤ w) (hne : l ≠ [])
    (h : ∀ a ∈ l, w ≤ a) : w ≤ l.sum := by
  obtain ⟨a, ha⟩ := List.exists_mem_of_ne_nil l hne
  have h0 : ∀ x ∈ l, 0 ≤ x := fun x hx => le_trans hw (h x hx)
  exact le_trans (h a ha) (List.single_le_sum h0 a ha)

theorem dim_frac_lower (dim part tot w T : ℚ) (len : ℕ)
    (hw_pos : 0 < w) (hT_pos : 0 < T) (htot : 0 < tot) (htotT : tot ≤ T)
    (hpart : w ≤ part) (hdim : eps * (T / w) ^ len ≤ dim) (hdim0 : 0 ≤ dim)
    (hlen : 1 ≤ len) :
    eps * (T / w) ^ (len - 1) ≤ dim * (part / tot) := by
  have hfrac : w / T ≤ part / tot := by
    rw [div_le_div_iff hT_pos htot]
    exact mul_le_mul hpart htotT htot.le (le_trans hw_pos.le hpart)
  have hfrac0 : 0 ≤ w / T := div_nonneg hw_pos.le hT_pos.le
  have hkey : (eps * (T / w) ^ len) * (w / T) ≤ dim * (part / tot) :=
    mul_le_mul hdim hfrac hfrac0 hdim0
  have hpow : (T / w) ^ len = (T / w) ^ (len - 1) * (T / w) := by
    rw [← pow_succ]
    congr 1
    omega
  have hTw : T / w * (w / T) = 1 := by field_simp
  calc eps * (T / w) ^ (len - 1)
      = eps * (T / w) ^ (len - 1) * (T / w * (w / T)) := by rw [hTw, mul_one]
    _ = (eps * (T / w) ^ len) * (w / T) := by rw [hpow]; ring
    _ ≤ dim * (part / tot) := hkey

/-- Full-cardinality lemma: for a nonincreasing weight list whose entries
all lie above a floor `w ≥ eps`, totals bounded by `T`, a recursion budget
of at least the list length, and outer dimensions at least
`eps * (T / w) ^ length`, no guard ever fires and the result has exactly
one rectangle per weight. -/
theorem computeAux_full_length (w T : ℚ) (hweps : eps ≤ w) (hwT : w ≤ T) :
    ∀ (fuel : ℕ) (s : List ℚ) (r : Rect) (h : Bool),
      s.length ≤ fuel →
      List.Pairwise (· ≥ ·) s →
      (∀ a ∈ s, w ≤ a) →
      s.sum ≤ T →
      eps * (T / w) ^ s.length ≤ rectW r →
      eps * (T / w) ^ s.length ≤ rectH r →
      (computeAux fuel s r h).length = s.length := by
  have hw_pos : 0 < w := lt_of_lt_of_le eps_pos hweps
  have hT_pos : 0 < T := lt_of_lt_of_le hw_pos hwT
  have hTw1 : 1 ≤ T / w := (one_le_div hw_pos).mpr hwT
  have hmono : ∀ m k : ℕ, m ≤ k → eps * (T / w) ^ m ≤ eps * (T / w) ^ k := by
    intro m k hmk
    have h2 := pow_le_pow_right₀ hTw1 hmk
    nlinarith [eps_pos]
  intro fuel
  induction fuel with
  | zero =>
    intro s r h hfuel _ _ _ _ _
    have hs : s = [] := List.length_eq_zero.mp (by omega)
    rw [hs, computeAux]
    rfl
  | succ n ih =>
    intro s r h hfuel hpw hmin hsumT hW hH
    rw [computeAux]
    by_cases h1 : s = []
    · rw [if_pos h1, h1]
      rfl
    · rw [if_neg h1]
      have hw0 : ∀ x ∈ s, 0 ≤ x := fun x hx => le_trans hw_pos.le (hmin x hx)
      have hsum_lb : w ≤ s.sum := le_sum_of_forall_le s w hw_pos.le h1 hmin
      have hsum_pos : 0 < s.sum := lt_of_lt_of_le hw_pos hsum_lb
      rw [if_neg (not_le.mpr hsum_pos)]
      by_cases h3 : s.length = 1
      · rw [if_pos h3, List.length_singleton, h3]
      · rw [if_neg h3]
        have hlen2 : 2 ≤ s.length := by
          have := List.length_pos.mpr h1
          omega
        rw [if_neg (not_lt.mpr (le_trans hweps hsum_lb))]
        have heps1 : eps ≤ eps * (T / w) ^ s.length := by
          have h9 := hmono 0 s.length (Nat.zero_le _)
          rw [pow_zero, mul_one] at h9
          exact h9
        have hWeps : eps ≤ rectW r := le_trans heps1 hW
        have hHeps : eps ≤ rectH r := le_trans heps1 hH
        rw [if_neg (by rw [not_or]; exact ⟨not_lt.mpr hWeps, not_lt.mpr hHeps⟩)]
        -- the split lands strictly inside a nonincreasing list
        have hdrop_len : (s.drop (s.length - 1)).length = 1 := by
          rw [List.length_drop]
          omega
        obtain ⟨b, hb⟩ := List.length_eq_one.mp hdrop_len
        have hb_mem : b ∈ s := List.drop_subset _ _ (hb ▸ List.mem_singleton_self b)
        have hsplit_pw : ∀ x ∈ s.take (s.length - 1), ∀ y ∈ s.drop (s.length - 1), x ≥ y := by
          have hpw2 : List.Pairwise (· ≥ ·) (s.take (s.length - 1) ++ s.drop (s.length - 1)) := by
            rw [List.take_append_drop]
            exact hpw
          exact (List.pairwise_append.mp hpw2).2.2
        have htake_ne : s.take (s.length - 1) ≠ [] := by
          rw [← List.length_pos, List.length_take]
          omega
        obtain ⟨a0, ha0⟩ := List.exists_mem_of_ne_nil _ htake_ne
        have ha0_ge : b ≤ a0 := hsplit_pw a0 ha0 b (hb ▸ List.mem_singleton_self b)
        have htake_sum_ge : a0 ≤ (s.take (s.length - 1)).sum :=
          List.single_le_sum (fun x hx => hw0 x (List.take_subset _ _ hx)) a0 ha0
        have hsum_split : (s.take (s.length - 1)).sum + b = s.sum := by
          have h9 : (s.take (s.length - 1)).sum + (s.drop (s.length - 1)).sum = s.sum := by
            rw [← List.sum_append, List.take_append_drop]
          rw [hb] at h9
          simpa using h9
        have hhalf_le : s.sum / 2 ≤ 0 + (s.take (s.length - 1)).sum := by
          have hba : b ≤ (s.take (s.length - 1)).sum := le_trans ha0_ge htake_sum_ge
          linarith
        have hscan_ub := splitScan_le (s.sum / 2) s 0 0 (s.length - 1) (by omega) hhalf_le
        have hscan_lb := splitScan_pos (s.sum / 2) s 0 0 h1 (by linarith)
        have hsi_ub : split_idx s ≤ s.length - 1 := by
          rw [split_idx]
          split_ifs <;> omega
        have hsi_lb := split_idx_pos s
        have hlen_left : (leftSizes s).length = split_idx s := by
          rw [leftSizes, List.length_take]
          have := split_idx_le_length s h1
          omega
        have hlen_right : (rightSizes s).length = s.length - split_idx s := by
          rw [rightSizes, List.length_drop]
        -- facts about the two parts
        have hwL : ∀ a ∈ leftSizes s, w ≤ a := fun x hx => hmin x (List.take_subset _ _ hx)
        have hwR : ∀ a ∈ rightSizes s, w ≤ a := fun x hx => hmin x (List.drop_subset _ _ hx)
        have hpwL : List.Pairwise (· ≥ ·) (leftSizes s) :=
          hpw.sublist (List.take_sublist _ _)
        have hpwR : List.Pairwise (· ≥ ·) (rightSizes s) :=
          hpw.sublist (List.drop_sublist _ _)
        have hLne : leftSizes s ≠ [] := leftSizes_ne_nil s h1
        have hRne : rightSizes s ≠ [] := by
          rw [← List.length_pos, hlen_right]
          omega
        have h0L : 0 ≤ (leftSizes s).sum :=
          List.sum_nonneg (fun x hx => hw0 x (List.take_subset _ _ hx))
        have h0R : 0 ≤ (rightSizes s).sum :=
          List.sum_nonneg (fun x hx => hw0 x (List.drop_subset _ _ hx))
        have hLR := sum_leftSizes_add_sum_rightSizes s
        have hsumL_le : (leftSizes s).sum ≤ T := by linarith
        have hsumR_le : (rightSizes s).sum ≤ T := by linarith
        have hlsw : w ≤ (leftSizes s).sum := le_sum_of_forall_le _ w hw_pos.le hLne hwL
        have hrsw : w ≤ (rightSizes s).sum := le_sum_of_forall_le _ w hw_pos.le hRne hwR
        have hWr0 : 0 ≤ rectW r := le_trans eps_pos.le hWeps
        have hHr0 : 0 ≤ rectH r := le_trans eps_pos.le hHeps
        have hlw_lb : eps * (T / w) ^ (s.length - 1) ≤ leftW s r := by
          rw [leftW, if_pos hsum_pos]
          exact dim_frac_lower (rectW r) (leftSizes s).sum s.sum w T s.length hw_pos hT_pos
            hsum_pos hsumT hlsw hW hWr0 (by omega)
        have hrw_lb : eps * (T / w) ^ (s.length - 1) ≤ rectW r - leftW s r := by
          have hswap : rectW r - leftW s r = rectW r * ((rightSizes s).sum / s.sum) := by
            rw [leftW, if_pos hsum_pos]
            have h10 : (leftSizes s).sum = s.sum - (rightSizes s).sum := by linarith
            rw [h10]
            field_simp
            ring
          rw [hswap]
          exact dim_frac_lower (rectW r) (rightSizes s).sum s.sum w T s.length hw_pos hT_pos
            hsum_pos hsumT hrsw hW hWr0 (by omega)
        have hlh_lb : eps * (T / w) ^ (s.length - 1) ≤ leftH s r := by
          rw [leftH, if_pos hsum_pos]
          exact dim_frac_lower (rectH r) (leftSizes s).sum s.sum w T s.length hw_pos hT_pos
            hsum_pos hsumT hlsw hH hHr0 (by omega)
        have hrh_lb : eps * (T / w) ^ (s.length - 1) ≤ rectH r - leftH s r := by
          have hswap : rectH r - leftH s r = rectH r * ((rightSizes s).sum / s.sum) := by
            rw [leftH, if_pos hsum_pos]
            have h10 : (leftSizes s).sum = s.sum - (rightSizes s).sum := by linarith
            rw [h10]
            field_simp
            ring
          rw [hswap]
          exact dim_frac_lower (rectH r) (rightSizes s).sum s.sum w T s.length hw_pos hT_pos
            hsum_pos hsumT hrsw hH hHr0 (by omega)
        have heps2 : eps ≤ eps * (T / w) ^ (s.length - 1) := by
          have h9 := hmono 0 (s.length - 1) (Nat.zero_le _)
          rw [pow_zero, mul_one] at h9
          exact h9
        have hlensum := length_leftSizes_add_length_rightSizes s
        cases h with
        | true =>
          rw [if_pos rfl, if_neg (not_lt.mpr (le_trans heps2 hlw_lb)), List.length_append]
          have ihL := ih (leftSizes s) ⟨r.x0, r.y0, r.x0 + leftW s r, r.y1⟩ (!true)
            (by omega) hpwL hwL hsumL_le
            (by
              have hWl : rectW ⟨r.x0, r.y0, r.x0 + leftW s r, r.y1⟩ = leftW s r := by
                show r.x0 + leftW s r - r.x0 = leftW s r
                ring
              rw [hWl]
              exact le_trans (hmono _ _ (by omega)) hlw_lb)
            (by
              have hHl : rectH ⟨r.x0, r.y0, r.x0 + leftW s r, r.y1⟩ = rectH r := rfl
              rw [hHl]
              exact le_trans (hmono _ _ (by omega)) hH)
          have ihR := ih (rightSizes s) ⟨r.x0 + leftW s r, r.y0, r.x1, r.y1⟩ (!true)
            (by omega) hpwR hwR hsumR_le
            (by
              have hWl : rectW ⟨r.x0 + leftW s r, r.y0, r.x1, r.y1⟩ = rectW r - leftW s r := by
                show r.x1 - (r.x0 + leftW s r) = rectW r - leftW s r
                rw [rectW]
                ring
              rw [hWl]
              exact le_trans (hmono _ _ (by omega)) hrw_lb)
            (by
              have hHl : rectH ⟨r.x0 + leftW s r, r.y0, r.x1, r.y1⟩ = rectH r := rfl
              rw [hHl]
              exact le_trans (hmono _ _ (by omega)) hH)
          rw [ihL, ihR]
          omega
        | false =>
          rw [if_neg Bool.false_ne_true, if_neg (not_lt.mpr (le_trans heps2 hlh_lb)),
            List.length_append]
          have ihL := ih (leftSizes s) ⟨r.x0, r.y0, r.x1, r.y0 + leftH s r⟩ (!false)
            (by omega) hpwL hwL hsumL_le
            (by
              have hWl : rectW ⟨r.x0, r.y0, r.x1, r.y0 + leftH s r⟩ = rectW r := rfl
              rw [hWl]
              exact le_trans (hmono _ _ (by omega)) hW)
            (by
              have hHl : rectH ⟨r.x0, r.y0, r.x1, r.y0 + leftH s r⟩ = leftH s r := by
                show r.y0 + leftH s r - r.y0 = leftH s r
                ring
              rw [hHl]
              exact le_trans (hmono _ _ (by omega)) hlh_lb)
          have ihR := ih (rightSizes s) ⟨r.x0, r.y0 + leftH s r, r.x1, r.y1⟩ (!false)
            (by omega) hpwR hwR hsumR_le
            (by
              have hWl : rectW ⟨r.x0, r.y0 + leftH s r, r.x1, r.y1⟩ = rectW r := rfl
              rw [hWl]
              exact le_trans (hmono _ _ (by omega)) hW)
            (by
              have hHl : rectH ⟨r.x0, r.y0 + leftH s r, r.x1, r.y1⟩ = rectH r - leftH s r := by
                show r.y1 - (r.y0 + leftH s r) = rectH r - leftH s r
                rw [rectH]
                ring
              rw [hHl]
              exact le_trans (hmono _ _ (by omega)) hrh_lb)
          rw [ihL, ihR]
          omega

set_option maxHeartbeats 2000000 in
/-- Claim C1 (as stated) is false: the sorted, well-conditioned weights
`[8, 4, 2, 1]` (all positive, total 15 ≥ 1e-6) on the unit square (both
dimensions well above 1e-6), at depth 0 with
`maxDepth = 3 = ceil(log2 4) + 1`, produce only 2 rectangles, not 4: the
running-sum bisection splits one element off per level, so the recursion
needs depth ≈ n, not ≈ log2 n. -/
theorem C1_counterexample :
    (∀ a ∈ [(8 : ℚ), 4, 2, 1], 0 < a) ∧
      eps ≤ List.sum [(8 : ℚ), 4, 2, 1] ∧
      (1 : ℚ) / 100 ≤ rectW ⟨0, 0, 1, 1⟩ ∧
      (1 : ℚ) / 100 ≤ rectH ⟨0, 0, 1, 1⟩ ∧
      Nat.clog 2 ([(8 : ℚ), 4, 2, 1]).length + 1 ≤ 3 ∧
      (compute_treemap_rects [(8 : ℚ), 4, 2, 1] ⟨0, 0, 1, 1⟩ true 0 3).length
        ≠ ([(8 : ℚ), 4, 2, 1]).length := by
  have hval : computeAux 3 [(8 : ℚ), 4, 2, 1] ⟨0, 0, 1, 1⟩ true
      = [⟨0, 0, 8/15, 1⟩, ⟨8/15, 0, 1, 4/7⟩] := by
    norm_num [computeAux, splitScan, split_idx, leftSizes, rightSizes, leftW, leftH, eps,
      rectW, rectH, List.cons_ne_nil]
  refine ⟨by norm_num, by rw [eps]; norm_num, by rw [rectW]; norm_num,
    by rw [rectH]; norm_num, ?_, ?_⟩
  · have h := Nat.clog_pow 2 2 (by norm_num)
    norm_num at h ⊢
    omega
  · rw [compute_eq_computeAux]
    have h3 : ((3 : ℤ) - 0).toNat = 3 := rfl
    rw [h3, hval]
    norm_num

/-- Claim C1 (amended): for every nonincreasing weight sequence (the
caller sorts weights in descending order) whose entries all lie at or
above a floor `wmin ≥ 1e-6`, every outer rectangle whose width and
height are both at least `1e-6 * (total / wmin) ^ n`, any orientation
flag, depth 0, and every `maxDepth ≥ n`, `compute_treemap_rects` returns
exactly `n` rectangles. -/
theorem C1_cardinality (sizes : List ℚ) (outer_rect : Rect) (horizontal : Bool)
    (max_depth : ℤ) (wmin : ℚ)
    (hpw : List.Pairwise (· ≥ ·) sizes)
    (hmin : ∀ a ∈ sizes, wmin ≤ a)
    (hweps : eps ≤ wmin)
    (hW : eps * (sizes.sum / wmin) ^ sizes.length ≤ rectW outer_rect)
    (hH : eps * (sizes.sum / wmin) ^ sizes.length ≤ rectH outer_rect)
    (hdep : (sizes.length : ℤ) ≤ max_depth) :
    (compute_treemap_rects sizes outer_rect horizontal 0 max_depth).length
      = sizes.length := by
  rw [compute_eq_computeAux]
  by_cases hne : sizes = []
  · subst hne
    have hnil : computeAux ((max_depth - 0).toNat) ([] : List ℚ) outer_rect horizontal = [] := by
      cases hf : (max_depth - 0).toNat with
      | zero => rw [computeAux]
      | succ m => rw [computeAux, if_pos rfl]
    rw [hnil]
    rfl
  · have hT : wmin ≤ sizes.sum :=
      le_sum_of_forall_le sizes wmin (le_trans eps_pos.le hweps) hne hmin
    exact computeAux_full_length wmin sizes.sum hweps hT ((max_depth - 0).toNat) sizes
      outer_rect horizontal (by omega) hpw hmin (le_refl _) hW hH

theorem C1_witness :
    (compute_treemap_rects [(8 : ℚ), 4, 2, 1] ⟨0, 0, 1, 1⟩ true 0 4).length
      = ([(8 : ℚ), 4, 2, 1]).length :=
  C1_cardinality [8, 4, 2, 1] ⟨0, 0, 1, 1⟩ true 4 1 (by norm_num) (by norm_num)
    (by rw [eps]; norm_num) (by norm_num [eps, rectW]) (by norm_num [eps, rectH])
    (by norm_num)
